import Mathlib

/-!
# Verification of the concurrent sorted int list (`src/list.go`, package `collections`)

Shallow embedding of the lazy-synchronization sorted linked list of integers.

Modelling choices, all taken from the source:

* An `intNode` carries a `value` (Go `int`; comparisons only, no arithmetic, so
  `Int` is an exact model) and its logical-deletion flag `marked`
  (`markedValue atomic.Value`).  The per-node `sync.Mutex` has no sequential
  content; in a single-threaded execution a lock acquired by the running
  operation is always granted, so locks are erased from the state.
* The physical chain reachable from the sentinel's `next` pointer is a Lean
  `List intNode`; the sentinel (`root`) is kept separately because
  `NewConcurrentIntList` stores the value `-1` in it and `Insert`/`Delete`
  validation reads the sentinel's `marked` flag (`pre.marked()` with
  `pre = intList.root`).
* The `goto start` retry loops of `Insert`/`Delete` fire exactly when the
  commit-time validation fails.  In a sequential execution the state cannot
  change between the search phase and the validation, so a failed validation
  would retry forever with the same outcome.  The step functions
  `insertAux`/`deleteAux` therefore return `Option`: `some` is the committed
  result, `none` means "validation failed, `goto start`".  The wrappers
  totalize `none` as a no-op, and `c8_operations_total` proves that `none`
  never occurs in any sequentially reachable state, so the wrapper's fallback
  branch is dead code there.
* The `size` field is Go `int64` updated by `atomic.AddInt64` with `±1`.  It is
  modelled as `Int`: its absolute value is bounded by the number of completed
  operations, so 64-bit wrap-around is unreachable for any finite run and the
  claims never exercise it.
-/

/-- `intNode` from `src/list.go` (lines 25-30): payload value plus the
logical-deletion flag.  The `nextPtr` field is represented by the node's
position in the chain list; `mutex` is erased (see the header comment). -/
structure intNode where
  value : Int
  marked : Bool
  deriving Repr, DecidableEq

/-- `newIntNode` (line 50-52): a fresh node holds the given value; Go
zero-initialization leaves `markedValue` unset, and `marked()` decodes an
unset `atomic.Value` as `false`. -/
def newIntNode (value : Int) : intNode :=
  ⟨value, false⟩

/-- `ConcurrentIntList` (lines 55-58): the sentinel `root` node, the physical
chain hanging off `root.next()`, and the approximate size counter. -/
structure ConcurrentIntList where
  root : intNode
  chain : List intNode
  size : Int
  deriving Repr, DecidableEq

/-- `NewConcurrentIntList` (lines 60-62): fresh sentinel with value `-1`,
empty chain, zero counter. -/
def NewConcurrentIntList : ConcurrentIntList :=
  ⟨newIntNode (-1), [], 0⟩

/-- Loop body of `Contains` (lines 64-73): advance while the node is marked or
its value is below the target; at the stop node return `value == target`;
at end of chain return `false`. -/
def containsAux (value : Int) : List intNode → Bool
  | [] => false
  | n :: rest =>
    if n.marked || n.value < value then containsAux value rest
    else n.value == value

/-- `Contains` (lines 64-73): traversal starts at `intList.root.next()`,
i.e. at the head of the chain — the sentinel's own value is never examined. -/
def ConcurrentIntList.Contains (l : ConcurrentIntList) (value : Int) : Bool :=
  containsAux value l.chain

/-- One attempt of `Insert` (lines 75-104).  The `preMarked` argument is the
`marked` flag of the current predecessor (`pre`), initially the sentinel's.
Mirrors the Go control flow:
search loop `current.value < value` (marked nodes are *not* skipped, they move
into the `pre` role carrying their flag), then the duplicate check
`current != nil && current.value == value → false` *before* any lock, then
the validation `pre.next() == current && !pre.marked() && (current == nil ||
!current.marked())` — `pre.next() == current` holds structurally in a
sequential state, the flag checks remain.  `none` is a failed validation
(`goto start`).  On success the new node is linked with `next` already set
(`newNode.updateNext(current)` before `pre.updateNext(newNode)`). -/
def insertAux (value : Int) (preMarked : Bool) : List intNode → Option (Bool × List intNode)
  | [] =>
    if preMarked then none
    else some (true, [newIntNode value])
  | n :: rest =>
    if n.value < value then
      (insertAux value n.marked rest).map fun r => (r.1, n :: r.2)
    else if n.value == value then
      some (false, n :: rest)
    else if preMarked || n.marked then
      none
    else
      some (true, newIntNode value :: n :: rest)

/-- `Insert` (lines 75-104): run one attempt from the sentinel; on success the
counter is bumped (`intList.sizeIncr()`, line 100) exactly when the result is
`true`.  A `none` attempt is the sequentially-unreachable retry; it is
totalized as a no-op (see header). -/
def ConcurrentIntList.Insert (l : ConcurrentIntList) (value : Int) : Bool × ConcurrentIntList :=
  match insertAux value l.root.marked l.chain with
  | some (b, c) => (b, ⟨l.root, c, if b then l.size + 1 else l.size⟩)
  | none => (false, l)

/-- One attempt of `Delete` (lines 106-143), `preMarked` as in `insertAux`.
Search loop `current.marked() || current.value < value` (marked nodes are
skipped but pass through the `pre` role), then
`current == nil || current.value != value → false`, then under `current`'s
lock the re-check `current.marked() → retry`, then under `pre`'s lock the
validation `pre.next() == current && !pre.marked()`.  On success: mark
`current`, unlink it (`pre.updateNext(current.next())`), decrement the
counter. -/
def deleteAux (value : Int) (preMarked : Bool) : List intNode → Option (Bool × List intNode)
  | [] => some (false, [])
  | n :: rest =>
    if n.marked || n.value < value then
      (deleteAux value n.marked rest).map fun r => (r.1, n :: r.2)
    else if n.value != value then
      some (false, n :: rest)
    else if n.marked then
      none
    else if preMarked then
      none
    else
      some (true, rest)

/-- `Delete` (lines 106-143): one attempt from the sentinel, counter
decremented (`intList.sizeDecr()`, line 138) exactly when the result is
`true`; `none` totalized as a no-op as for `Insert`. -/
def ConcurrentIntList.Delete (l : ConcurrentIntList) (value : Int) : Bool × ConcurrentIntList :=
  match deleteAux value l.root.marked l.chain with
  | some (b, c) => (b, ⟨l.root, c, if b then l.size - 1 else l.size⟩)
  | none => (false, l)

/-- Loop of `Range` (lines 145-151): the visitor `f` is called on each value in
chain order as part of the loop guard, so the value on which `f` returns
`false` is still visited; the result lists the values passed to `f`. -/
def rangeVisit (f : Int → Bool) : List intNode → List Int
  | [] => []
  | n :: rest => n.value :: (if f n.value then rangeVisit f rest else [])

/-- `Range` (lines 145-151), starting at `intList.root.next()`.  The model
returns the sequence of values handed to the visitor. -/
def ConcurrentIntList.Range (l : ConcurrentIntList) (f : Int → Bool) : List Int :=
  rangeVisit f l.chain

/-- `Range` with the always-continue visitor: the full traversal output. -/
def ConcurrentIntList.rangeValues (l : ConcurrentIntList) : List Int :=
  l.Range fun _ => true

/-- `Len` (lines 162-164): reads the counter. -/
def ConcurrentIntList.Len (l : ConcurrentIntList) : Int :=
  l.size

/-- A completed mutating call: `Insert(v)` or `Delete(v)`. -/
inductive Op where
  | insert (v : Int)
  | delete (v : Int)
  deriving Repr, DecidableEq

/-- State after one completed call (return value discarded). -/
def applyOp (l : ConcurrentIntList) : Op → ConcurrentIntList
  | .insert v => (l.Insert v).2
  | .delete v => (l.Delete v).2

/-- State after a finite sequence of completed calls on a fresh list, none in
flight (quiescent sequential execution). -/
def run (ops : List Op) : ConcurrentIntList :=
  ops.foldl applyOp NewConcurrentIntList

/-- No node of the chain is logically deleted. -/
abbrev allUnmarked (c : List intNode) : Prop :=
  ∀ n ∈ c, n.marked = false

/-- The chain is strictly sorted by value. -/
abbrev sortedChain (c : List intNode) : Prop :=
  List.Pairwise (fun a b => a.value < b.value) c

/-- Invariant of sequentially reachable states: the sentinel is the one built
by `NewConcurrentIntList`, the chain is strictly sorted with no marked node,
and the counter equals the chain length. -/
abbrev SeqInv (l : ConcurrentIntList) : Prop :=
  l.root = newIntNode (-1) ∧ allUnmarked l.chain ∧ sortedChain l.chain ∧
    l.size = (l.chain.length : Int)

/-- Net signed count of `v`-calls in an op sequence, successful or not:
`+1` per `Insert(v)` call, `-1` per `Delete(v)` call. -/
def callNet (ops : List Op) (v : Int) : Int :=
  (ops.map fun o =>
    match o with
    | .insert w => if w == v then (1 : Int) else 0
    | .delete w => if w == v then (-1 : Int) else 0).sum

/-- One completed call together with the bookkeeping of the net count of
*successful* (true-returning) `v`-calls. -/
def stepNet (v : Int) (s : ConcurrentIntList × Int) (o : Op) : ConcurrentIntList × Int :=
  match o with
  | .insert w =>
    let r := s.1.Insert w
    (r.2, if r.1 && (w == v) then s.2 + 1 else s.2)
  | .delete w =>
    let r := s.1.Delete w
    (r.2, if r.1 && (w == v) then s.2 - 1 else s.2)

/-- Run a call sequence on a fresh list, tracking the net successful `v`-call
count. -/
def runNet (ops : List Op) (v : Int) : ConcurrentIntList × Int :=
  ops.foldl (stepNet v) (NewConcurrentIntList, 0)

/-- The chain state written by `current.mark()` (line 136): the victim node's
flag is set while the node is still physically linked between its
neighbours. -/
def markCommit (front : List intNode) (n : intNode) (back : List intNode) : List intNode :=
  front ++ ⟨n.value, true⟩ :: back

/-- The chain state written by the subsequent `pre.updateNext(current.next())`
(line 137): the (already marked) victim node is skipped. -/
def unlinkCommit (front back : List intNode) : List intNode :=
  front ++ back

/-! ## Proof layer: functional descriptions of the single-attempt loops

On chains without marked nodes (the sequentially reachable ones) the
`Option`-valued attempts always commit; `insRes`/`insChain` and
`delRes`/`delChain` describe the returned boolean and the written chain. -/

/-- Values stored in a chain, in physical order. -/
def vals (c : List intNode) : List Int :=
  c.map intNode.value

/-- Result boolean of an `Insert` attempt on an unmarked chain. -/
def insRes (value : Int) : List intNode → Bool
  | [] => true
  | n :: rest => if n.value < value then insRes value rest else decide (n.value ≠ value)

/-- Chain written by an `Insert` attempt on an unmarked chain. -/
def insChain (value : Int) : List intNode → List intNode
  | [] => [newIntNode value]
  | n :: rest =>
    if n.value < value then n :: insChain value rest
    else if n.value = value then n :: rest
    else newIntNode value :: n :: rest

/-- Result boolean of a `Delete` attempt on an unmarked chain. -/
def delRes (value : Int) : List intNode → Bool
  | [] => false
  | n :: rest => if n.value < value then delRes value rest else decide (n.value = value)

/-- Chain written by a `Delete` attempt on an unmarked chain. -/
def delChain (value : Int) : List intNode → List intNode
  | [] => []
  | n :: rest =>
    if n.value < value then n :: delChain value rest
    else if n.value = value then rest
    else n :: rest

theorem insertAux_eq_spec (value : Int) :
    ∀ c : List intNode, allUnmarked c →
      insertAux value false c = some (insRes value c, insChain value c) := by
  intro c
  induction c with
  | nil => intro _; simp [insertAux, insRes, insChain]
  | cons n rest ih =>
    intro h
    obtain ⟨hn, hrest⟩ := List.forall_mem_cons.mp h
    by_cases hlt : n.value < value
    · simp [insertAux, insRes, insChain, hlt, hn, ih hrest]
    · by_cases heq : n.value = value
      · simp [insertAux, insRes, insChain, hlt, heq]
      · simp [insertAux, insRes, insChain, hlt, heq, hn]

theorem deleteAux_eq_spec (value : Int) :
    ∀ c : List intNode, allUnmarked c →
      deleteAux value false c = some (delRes value c, delChain value c) := by
  intro c
  induction c with
  | nil => intro _; simp [deleteAux, delRes, delChain]
  | cons n rest ih =>
    intro h
    obtain ⟨hn, hrest⟩ := List.forall_mem_cons.mp h
    by_cases hlt : n.value < value
    · simp [deleteAux, delRes, delChain, hlt, hn, ih hrest]
    · by_cases heq : n.value = value
      · simp [deleteAux, delRes, delChain, hlt, heq, hn]
      · simp [deleteAux, delRes, delChain, hlt, heq, hn]

theorem containsAux_eq_delRes (value : Int) :
    ∀ c : List intNode, allUnmarked c → containsAux value c = delRes value c := by
  intro c
  induction c with
  | nil => intro _; simp [containsAux, delRes]
  | cons n rest ih =>
    intro h
    obtain ⟨hn, hrest⟩ := List.forall_mem_cons.mp h
    by_cases hlt : n.value < value
    · simp [containsAux, delRes, hlt, hn, ih hrest]
    · by_cases heq : n.value = value <;> simp [containsAux, delRes, hlt, hn, heq]

theorem insRes_eq_not_delRes (value : Int) :
    ∀ c : List intNode, insRes value c = !(delRes value c) := by
  intro c
  induction c with
  | nil => simp [insRes, delRes]
  | cons n rest ih =>
    by_cases hlt : n.value < value
    · simp [insRes, delRes, hlt, ih]
    · simp [insRes, delRes, hlt, decide_not]

theorem insRes_cons (value : Int) (n : intNode) (rest : List intNode) :
    insRes value (n :: rest) =
      if n.value < value then insRes value rest else decide (n.value ≠ value) := rfl

theorem insChain_cons (value : Int) (n : intNode) (rest : List intNode) :
    insChain value (n :: rest) =
      if n.value < value then n :: insChain value rest
      else if n.value = value then n :: rest
      else newIntNode value :: n :: rest := rfl

theorem delRes_cons (value : Int) (n : intNode) (rest : List intNode) :
    delRes value (n :: rest) =
      if n.value < value then delRes value rest else decide (n.value = value) := rfl

theorem delChain_cons (value : Int) (n : intNode) (rest : List intNode) :
    delChain value (n :: rest) =
      if n.value < value then n :: delChain value rest
      else if n.value = value then rest
      else n :: rest := rfl

theorem vals_cons (n : intNode) (rest : List intNode) :
    vals (n :: rest) = n.value :: vals rest := rfl

theorem mem_vals (x : Int) (c : List intNode) :
    x ∈ vals c ↔ ∃ m ∈ c, m.value = x := by
  simp [vals]

theorem mem_insChain (value : Int) :
    ∀ c : List intNode, ∀ n' ∈ insChain value c, n' ∈ c ∨ n' = newIntNode value := by
  intro c
  induction c with
  | nil => intro n' h; simp [insChain] at h; right; exact h
  | cons n rest ih =>
    intro n' h
    by_cases hlt : n.value < value
    · rw [insChain_cons, if_pos hlt] at h
      rcases List.mem_cons.mp h with h2 | h2
      · left; simp [h2]
      · rcases ih n' h2 with h3 | h3
        · left; simp [h3]
        · right; exact h3
    · by_cases heq : n.value = value
      · rw [insChain_cons, if_neg hlt, if_pos heq] at h
        left; exact h
      · rw [insChain_cons, if_neg hlt, if_neg heq] at h
        rcases List.mem_cons.mp h with h2 | h2
        · right; exact h2
        · left; exact h2

theorem mem_vals_insChain (value x : Int) :
    ∀ c : List intNode, x ∈ vals (insChain value c) ↔ x = value ∨ x ∈ vals c := by
  intro c
  induction c with
  | nil => simp [insChain, vals, newIntNode]
  | cons n rest ih =>
    by_cases hlt : n.value < value
    · rw [insChain_cons, if_pos hlt, vals_cons, vals_cons]
      rw [List.mem_cons, List.mem_cons, ih]
      tauto
    · by_cases heq : n.value = value
      · rw [insChain_cons, if_neg hlt, if_pos heq]
        constructor
        · exact Or.inr
        · rintro (h | h)
          · rw [vals_cons, List.mem_cons]; left; rw [h, ← heq]
          · exact h
      · rw [insChain_cons, if_neg hlt, if_neg heq]
        simp only [vals_cons, List.mem_cons, newIntNode]

theorem sorted_insChain (value : Int) :
    ∀ c : List intNode, sortedChain c → sortedChain (insChain value c) := by
  intro c
  induction c with
  | nil => intro _; simp [insChain, sortedChain, newIntNode]
  | cons n rest ih =>
    intro hs
    obtain ⟨hhead, hrest⟩ := List.pairwise_cons.mp hs
    by_cases hlt : n.value < value
    · rw [insChain_cons, if_pos hlt]
      refine List.pairwise_cons.mpr ⟨?_, ih hrest⟩
      intro m hm
      rcases mem_insChain value rest m hm with h | h
      · exact hhead m h
      · rw [h]; exact hlt
    · by_cases heq : n.value = value
      · rw [insChain_cons, if_neg hlt, if_pos heq]; exact hs
      · have hgt : value < n.value := by
          rcases lt_trichotomy n.value value with h | h | h
          · exact absurd h hlt
          · exact absurd h heq
          · exact h
        rw [insChain_cons, if_neg hlt, if_neg heq]
        refine List.pairwise_cons.mpr ⟨?_, hs⟩
        intro m hm
        rcases List.mem_cons.mp hm with h | h
        · rw [h]; exact hgt
        · exact lt_trans hgt (hhead m h)

theorem unmarked_insChain (value : Int) :
    ∀ c : List intNode, allUnmarked c → allUnmarked (insChain value c) := by
  intro c hc n' h
  rcases mem_insChain value c n' h with h2 | h2
  · exact hc n' h2
  · rw [h2]; rfl

theorem length_insChain (value : Int) :
    ∀ c : List intNode,
      (insChain value c).length = if insRes value c then c.length + 1 else c.length := by
  intro c
  induction c with
  | nil => simp [insChain, insRes]
  | cons n rest ih =>
    by_cases hlt : n.value < value
    · rw [insChain_cons, if_pos hlt, insRes_cons, if_pos hlt, List.length_cons, ih]
      by_cases h : insRes value rest <;> simp [h]
    · by_cases heq : n.value = value
      · rw [insChain_cons, if_neg hlt, if_pos heq, insRes_cons, if_neg hlt]
        simp [heq]
      · rw [insChain_cons, if_neg hlt, if_neg heq, insRes_cons, if_neg hlt]
        simp [heq]

theorem delChain_sublist (value : Int) :
    ∀ c : List intNode, (delChain value c).Sublist c := by
  intro c
  induction c with
  | nil => simp [delChain]
  | cons n rest ih =>
    by_cases hlt : n.value < value
    · rw [delChain_cons, if_pos hlt]
      exact List.Sublist.cons₂ n ih
    · by_cases heq : n.value = value
      · rw [delChain_cons, if_neg hlt, if_pos heq]
        exact List.sublist_cons_self n rest
      · rw [delChain_cons, if_neg hlt, if_neg heq]

theorem delChain_eq_self (value : Int) :
    ∀ c : List intNode, delRes value c = false → delChain value c = c := by
  intro c
  induction c with
  | nil => intro _; simp [delChain]
  | cons n rest ih =>
    intro h
    by_cases hlt : n.value < value
    · rw [delRes_cons, if_pos hlt] at h
      rw [delChain_cons, if_pos hlt, ih h]
    · rw [delRes_cons, if_neg hlt] at h
      have heq : ¬n.value = value := by simpa using h
      rw [delChain_cons, if_neg hlt, if_neg heq]

theorem delChain_decomp (value : Int) :
    ∀ c : List intNode, delRes value c = true →
      ∃ front n back, c = front ++ n :: back ∧ n.value = value ∧
        delChain value c = front ++ back := by
  intro c
  induction c with
  | nil => intro h; simp [delRes] at h
  | cons n rest ih =>
    intro h
    by_cases hlt : n.value < value
    · rw [delRes_cons, if_pos hlt] at h
      obtain ⟨front, n0, back, hc, hv, hd⟩ := ih h
      refine ⟨n :: front, n0, back, by rw [hc]; rfl, hv, ?_⟩
      rw [delChain_cons, if_pos hlt, hd]
      rfl
    · rw [delRes_cons, if_neg hlt] at h
      have heq : n.value = value := by simpa using h
      exact ⟨[], n, rest, rfl, heq, by rw [delChain_cons, if_neg hlt, if_pos heq]; rfl⟩

theorem lt_of_not_lt_of_ne (a b : Int) (h1 : ¬a < b) (h2 : ¬a = b) : b < a := by
  rcases lt_trichotomy a b with h | h | h
  · exact absurd h h1
  · exact absurd h h2
  · exact h

theorem delRes_iff_mem (value : Int) :
    ∀ c : List intNode, sortedChain c → (delRes value c = true ↔ value ∈ vals c) := by
  intro c
  induction c with
  | nil => intro _; simp [delRes, vals]
  | cons n rest ih =>
    intro hs
    obtain ⟨hhead, hrest⟩ := List.pairwise_cons.mp hs
    by_cases hlt : n.value < value
    · have hne : ¬value = n.value := fun h => absurd (h ▸ hlt) (lt_irrefl _)
      rw [delRes_cons, if_pos hlt, vals_cons, List.mem_cons, ih hrest]
      tauto
    · by_cases heq : n.value = value
      · rw [delRes_cons, if_neg hlt, vals_cons, List.mem_cons]
        simp [heq]
      · have hgt : value < n.value := lt_of_not_lt_of_ne n.value value hlt heq
        have hnot : value ∉ vals rest := by
          rw [mem_vals]
          rintro ⟨m, hm, hv⟩
          have hvm : value < m.value := lt_trans hgt (hhead m hm)
          rw [hv] at hvm
          exact lt_irrefl value hvm
        have h1 : ¬value = n.value := fun h => heq h.symm
        rw [delRes_cons, if_neg hlt, vals_cons, List.mem_cons]
        simp [heq, hnot, h1]

theorem mem_vals_delChain (value x : Int) :
    ∀ c : List intNode, sortedChain c →
      (x ∈ vals (delChain value c) ↔ x ∈ vals c ∧ x ≠ value) := by
  intro c
  induction c with
  | nil => intro _; simp [delChain, vals]
  | cons n rest ih =>
    intro hs
    obtain ⟨hhead, hrest⟩ := List.pairwise_cons.mp hs
    by_cases hlt : n.value < value
    · have hne : ¬n.value = value := fun h => absurd (h ▸ hlt) (lt_irrefl _)
      rw [delChain_cons, if_pos hlt, vals_cons, vals_cons, List.mem_cons, List.mem_cons,
        ih hrest]
      constructor
      · rintro (h | ⟨h1, h2⟩)
        · exact ⟨Or.inl h, fun hx => hne (by rw [← h, hx])⟩
        · exact ⟨Or.inr h1, h2⟩
      · rintro ⟨h1 | h1, h2⟩
        · exact Or.inl h1
        · exact Or.inr ⟨h1, h2⟩
    · by_cases heq : n.value = value
      · rw [delChain_cons, if_neg hlt, if_pos heq, vals_cons, List.mem_cons]
        have hrest_gt : ∀ y ∈ vals rest, value < y := by
          intro y hy
          obtain ⟨m, hm, hv⟩ := (mem_vals y rest).mp hy
          exact hv ▸ heq ▸ hhead m hm
        constructor
        · intro h
          exact ⟨Or.inr h, fun hx => absurd (hx ▸ hrest_gt x h) (lt_irrefl value)⟩
        · rintro ⟨h1 | h1, h2⟩
          · exact absurd (by rw [h1, heq]) h2
          · exact h1
      · have hgt : value < n.value := lt_of_not_lt_of_ne n.value value hlt heq
        rw [delChain_cons, if_neg hlt, if_neg heq, vals_cons, List.mem_cons]
        have hall : ∀ y, (y = n.value ∨ y ∈ vals rest) → value < y := by
          rintro y (h | h)
          · rw [h]; exact hgt
          · obtain ⟨m, hm, hv⟩ := (mem_vals y rest).mp h
            exact hv ▸ lt_trans hgt (hhead m hm)
        constructor
        · intro h
          exact ⟨h, fun hx => absurd (hx ▸ hall x h) (lt_irrefl value)⟩
        · exact fun h => h.1

theorem length_delChain (value : Int) :
    ∀ c : List intNode, delRes value c = true →
      (delChain value c).length + 1 = c.length := by
  intro c h
  obtain ⟨front, n0, back, hc, _, hd⟩ := delChain_decomp value c h
  rw [hd, hc]
  simp only [List.length_append, List.length_cons]
  omega

/-! ## List-level lemmas and the reachable-state invariant -/

theorem Insert_eq (l : ConcurrentIntList) (value : Int)
    (hroot : l.root = newIntNode (-1)) (hu : allUnmarked l.chain) :
    l.Insert value =
      (insRes value l.chain,
        ⟨l.root, insChain value l.chain,
          if insRes value l.chain then l.size + 1 else l.size⟩) := by
  have hm : l.root.marked = false := by rw [hroot]; rfl
  simp only [ConcurrentIntList.Insert, hm, insertAux_eq_spec value l.chain hu]

theorem Delete_eq (l : ConcurrentIntList) (value : Int)
    (hroot : l.root = newIntNode (-1)) (hu : allUnmarked l.chain) :
    l.Delete value =
      (delRes value l.chain,
        ⟨l.root, delChain value l.chain,
          if delRes value l.chain then l.size - 1 else l.size⟩) := by
  have hm : l.root.marked = false := by rw [hroot]; rfl
  simp only [ConcurrentIntList.Delete, hm, deleteAux_eq_spec value l.chain hu]

theorem Contains_eq (l : ConcurrentIntList) (value : Int) (hu : allUnmarked l.chain) :
    l.Contains value = delRes value l.chain :=
  containsAux_eq_delRes value l.chain hu

theorem rangeVisit_true (c : List intNode) : rangeVisit (fun _ => true) c = vals c := by
  induction c with
  | nil => rfl
  | cons n rest ih => simp [rangeVisit, vals_cons, ih]

theorem rangeValues_eq_vals (l : ConcurrentIntList) : l.rangeValues = vals l.chain :=
  rangeVisit_true l.chain

theorem seqInv_new : SeqInv NewConcurrentIntList := by
  refine ⟨rfl, ?_, ?_, rfl⟩ <;> simp [NewConcurrentIntList, allUnmarked, sortedChain]

theorem seqInv_insert (l : ConcurrentIntList) (value : Int) (h : SeqInv l) :
    SeqInv (l.Insert value).2 := by
  obtain ⟨hroot, hu, hs, hsize⟩ := h
  rw [Insert_eq l value hroot hu]
  refine ⟨hroot, unmarked_insChain value l.chain hu, sorted_insChain value l.chain hs, ?_⟩
  show (if insRes value l.chain then l.size + 1 else l.size) =
    ((insChain value l.chain).length : Int)
  rw [length_insChain]
  by_cases hb : insRes value l.chain <;> simp [hb, hsize]

theorem seqInv_delete (l : ConcurrentIntList) (value : Int) (h : SeqInv l) :
    SeqInv (l.Delete value).2 := by
  obtain ⟨hroot, hu, hs, hsize⟩ := h
  rw [Delete_eq l value hroot hu]
  have hsub := delChain_sublist value l.chain
  refine ⟨hroot, fun n hn => hu n (hsub.mem hn), List.Pairwise.sublist hsub hs, ?_⟩
  show (if delRes value l.chain then l.size - 1 else l.size) =
    ((delChain value l.chain).length : Int)
  by_cases hb : delRes value l.chain
  · have := length_delChain value l.chain hb
    simp only [hb, if_pos]
    omega
  · rw [delChain_eq_self value l.chain (by simpa using hb)]
    simp [hb, hsize]

theorem seqInv_applyOp (l : ConcurrentIntList) (o : Op) (h : SeqInv l) :
    SeqInv (applyOp l o) := by
  cases o with
  | insert v => exact seqInv_insert l v h
  | delete v => exact seqInv_delete l v h

theorem seqInv_foldl :
    ∀ (ops : List Op) (l : ConcurrentIntList), SeqInv l → SeqInv (ops.foldl applyOp l) := by
  intro ops
  induction ops with
  | nil => intro l h; exact h
  | cons o rest ih => intro l h; exact ih (applyOp l o) (seqInv_applyOp l o h)

theorem seqInv_run (ops : List Op) : SeqInv (run ops) :=
  seqInv_foldl ops NewConcurrentIntList seqInv_new

theorem contains_iff_mem (l : ConcurrentIntList) (value : Int) (h : SeqInv l) :
    l.Contains value = true ↔ value ∈ l.rangeValues := by
  obtain ⟨_, hu, hs, _⟩ := h
  rw [Contains_eq l value hu, rangeValues_eq_vals, delRes_iff_mem value l.chain hs]

theorem insert_true_iff (l : ConcurrentIntList) (value : Int) (h : SeqInv l) :
    (l.Insert value).1 = !(l.Contains value) := by
  obtain ⟨hroot, hu, hs, hsize⟩ := h
  rw [Insert_eq l value hroot hu, Contains_eq l value hu]
  exact insRes_eq_not_delRes value l.chain

theorem delete_true_iff (l : ConcurrentIntList) (value : Int) (h : SeqInv l) :
    (l.Delete value).1 = l.Contains value := by
  obtain ⟨hroot, hu, hs, hsize⟩ := h
  rw [Delete_eq l value hroot hu, Contains_eq l value hu]

theorem contains_after_insert (l : ConcurrentIntList) (w v : Int) (h : SeqInv l) :
    ((l.Insert w).2.Contains v = true) ↔ (v = w ∨ l.Contains v = true) := by
  obtain ⟨hroot, hu, hs, hsize⟩ := h
  rw [Insert_eq l w hroot hu]
  show containsAux v (insChain w l.chain) = true ↔ _
  rw [containsAux_eq_delRes v _ (unmarked_insChain w l.chain hu),
    delRes_iff_mem v _ (sorted_insChain w l.chain hs), mem_vals_insChain w v l.chain,
    ConcurrentIntList.Contains, containsAux_eq_delRes v _ hu, delRes_iff_mem v _ hs]

theorem contains_after_delete (l : ConcurrentIntList) (w v : Int) (h : SeqInv l) :
    ((l.Delete w).2.Contains v = true) ↔ (v ≠ w ∧ l.Contains v = true) := by
  obtain ⟨hroot, hu, hs, hsize⟩ := h
  rw [Delete_eq l w hroot hu]
  show containsAux v (delChain w l.chain) = true ↔ _
  have hsub := delChain_sublist w l.chain
  rw [containsAux_eq_delRes v _ (fun n hn => hu n (hsub.mem hn)),
    delRes_iff_mem v _ (List.Pairwise.sublist hsub hs), mem_vals_delChain w v l.chain hs,
    ConcurrentIntList.Contains, containsAux_eq_delRes v _ hu, delRes_iff_mem v _ hs]
  tauto

theorem insChain_eq_self (value : Int) :
    ∀ c : List intNode, delRes value c = true → insChain value c = c := by
  intro c
  induction c with
  | nil => intro h; simp [delRes] at h
  | cons n rest ih =>
    intro h
    by_cases hlt : n.value < value
    · rw [delRes_cons, if_pos hlt] at h
      rw [insChain_cons, if_pos hlt, ih h]
    · rw [delRes_cons, if_neg hlt] at h
      have heq : n.value = value := by simpa using h
      rw [insChain_cons, if_neg hlt, if_pos heq]

theorem netAux :
    ∀ (ops : List Op) (v : Int) (l : ConcurrentIntList) (k : Int),
      SeqInv l → k = (if l.Contains v = true then (1 : Int) else 0) →
      (ops.foldl (stepNet v) (l, k)).2 =
        (if (ops.foldl applyOp l).Contains v = true then (1 : Int) else 0) := by
  intro ops
  induction ops with
  | nil => intro v l k _ hk; exact hk
  | cons o rest ih =>
    intro v l k hInv hk
    cases o with
    | insert w =>
      have hpair : stepNet v (l, k) (Op.insert w) =
          ((l.Insert w).2, if (l.Insert w).1 && (w == v) then k + 1 else k) := rfl
      have hfold : (Op.insert w :: rest).foldl (stepNet v) (l, k) =
          rest.foldl (stepNet v) (stepNet v (l, k) (Op.insert w)) := rfl
      have hfold2 : (Op.insert w :: rest).foldl applyOp l =
          rest.foldl applyOp (l.Insert w).2 := rfl
      rw [hfold, hfold2, hpair]
      refine ih v (l.Insert w).2 _ (seqInv_insert l w hInv) ?_
      have hca := contains_after_insert l w v hInv
      by_cases hw : w = v
      · subst hw
        have hc2 : (l.Insert w).2.Contains w = true := hca.mpr (Or.inl rfl)
        by_cases hc : l.Contains w = true
        · have hb : (l.Insert w).1 = false := by
            rw [insert_true_iff l w hInv, hc]; rfl
          rw [hk, if_pos hc, hb, if_pos hc2]
          simp
        · have hb : (l.Insert w).1 = true := by
            rw [insert_true_iff l w hInv, Bool.eq_false_iff.mpr hc]; rfl
          rw [hk, if_neg hc, hb, if_pos hc2]
          simp
      · have hguard : ((l.Insert w).1 && (w == v)) = false := by
          have : (w == v) = false := by simpa using hw
          rw [this, Bool.and_false]
        have hsame : ((l.Insert w).2.Contains v = true) ↔ (l.Contains v = true) := by
          rw [hca]
          constructor
          · rintro (h | h)
            · exact absurd h.symm hw
            · exact h
          · exact Or.inr
        rw [hguard, hk]
        by_cases hc : l.Contains v = true
        · rw [if_pos hc, if_pos (hsame.mpr hc)]
          simp
        · rw [if_neg hc, if_neg (fun h2 => hc (hsame.mp h2))]
          simp
    | delete w =>
      have hpair : stepNet v (l, k) (Op.delete w) =
          ((l.Delete w).2, if (l.Delete w).1 && (w == v) then k - 1 else k) := rfl
      have hfold : (Op.delete w :: rest).foldl (stepNet v) (l, k) =
          rest.foldl (stepNet v) (stepNet v (l, k) (Op.delete w)) := rfl
      have hfold2 : (Op.delete w :: rest).foldl applyOp l =
          rest.foldl applyOp (l.Delete w).2 := rfl
      rw [hfold, hfold2, hpair]
      refine ih v (l.Delete w).2 _ (seqInv_delete l w hInv) ?_
      have hca := contains_after_delete l w v hInv
      by_cases hw : w = v
      · subst hw
        have hc2 : (l.Delete w).2.Contains w = false := by
          refine Bool.eq_false_iff.mpr fun h2 => ?_
          exact absurd rfl (hca.mp h2).1
        by_cases hc : l.Contains w = true
        · have hb : (l.Delete w).1 = true := by rw [delete_true_iff l w hInv, hc]
          rw [hk, if_pos hc, hb, hc2]
          simp
        · have hb : (l.Delete w).1 = false := by
            rw [delete_true_iff l w hInv, Bool.eq_false_iff.mpr hc]
          rw [hk, if_neg hc, hb, hc2]
          simp
      · have hguard : ((l.Delete w).1 && (w == v)) = false := by
          have : (w == v) = false := by simpa using hw
          rw [this, Bool.and_false]
        have hsame : ((l.Delete w).2.Contains v = true) ↔ (l.Contains v = true) := by
          rw [hca]
          constructor
          · exact fun h => h.2
          · exact fun h => ⟨fun h2 => hw h2.symm, h⟩
        rw [hguard, hk]
        by_cases hc : l.Contains v = true
        · rw [if_pos hc, if_pos (hsame.mpr hc)]
          simp
        · rw [if_neg hc, if_neg (fun h2 => hc (hsame.mp h2))]
          simp

theorem runNet_eq (ops : List Op) (v : Int) :
    (runNet ops v).2 = (if (run ops).Contains v = true then (1 : Int) else 0) :=
  netAux ops v NewConcurrentIntList 0 seqInv_new (by rfl)

theorem bool_eq_false (b : Bool) (h : ¬b = true) : b = false := by
  cases b
  · rfl
  · exact absurd rfl h

theorem insertAux_mem (value : Int) :
    ∀ (c : List intNode) (pm b : Bool) (c2 : List intNode),
      insertAux value pm c = some (b, c2) → ∀ m ∈ c2, m ∈ c ∨ m = newIntNode value := by
  intro c
  induction c with
  | nil =>
    intro pm b c2 h m hm
    cases pm with
    | true => simp [insertAux] at h
    | false =>
      have h2 : some ((true : Bool), [newIntNode value]) = some (b, c2) := by
        rw [← h]
        rfl
      simp only [Option.some.injEq, Prod.mk.injEq] at h2
      right
      rw [← h2.2] at hm
      simpa using hm
  | cons n rest ih =>
    intro pm b c2 h m hm
    by_cases hlt : n.value < value
    · have h2 : (insertAux value n.marked rest).map (fun r => (r.1, n :: r.2)) =
          some (b, c2) := by
        rw [← h]
        simp [insertAux, hlt]
      obtain ⟨⟨b3, c3⟩, hrec, heq⟩ := Option.map_eq_some'.mp h2
      simp only [Prod.mk.injEq] at heq
      rw [← heq.2] at hm
      rcases List.mem_cons.mp hm with h3 | h3
      · left; rw [h3]; exact List.mem_cons_self n rest
      · rcases ih n.marked b3 c3 hrec m h3 with h4 | h4
        · left; exact List.mem_cons_of_mem n h4
        · right; exact h4
    · by_cases heq : n.value = value
      · have h2 : some ((false : Bool), n :: rest) = some (b, c2) := by
          rw [← h]
          simp [insertAux, hlt, heq]
        simp only [Option.some.injEq, Prod.mk.injEq] at h2
        rw [← h2.2] at hm
        left; exact hm
      · by_cases hpm : (pm || n.marked) = true
        · rw [show insertAux value pm (n :: rest) = none from by
            simp [insertAux, hlt, heq, hpm]] at h
          exact absurd h (by simp)
        · have h2 : some ((true : Bool), newIntNode value :: n :: rest) = some (b, c2) := by
            rw [← h]
            simp [insertAux, hlt, heq, bool_eq_false _ hpm]
          simp only [Option.some.injEq, Prod.mk.injEq] at h2
          rw [← h2.2] at hm
          rcases List.mem_cons.mp hm with h3 | h3
          · right; exact h3
          · left; exact h3

theorem deleteAux_sublist (value : Int) :
    ∀ (c : List intNode) (pm b : Bool) (c2 : List intNode),
      deleteAux value pm c = some (b, c2) → c2.Sublist c := by
  intro c
  induction c with
  | nil =>
    intro pm b c2 h
    simp only [deleteAux, Option.some.injEq, Prod.mk.injEq] at h
    rw [← h.2]
  | cons n rest ih =>
    intro pm b c2 h
    by_cases hg : (n.marked || decide (n.value < value)) = true
    · have h2 : (deleteAux value n.marked rest).map (fun r => (r.1, n :: r.2)) =
          some (b, c2) := by
        rw [← h]
        simp only [deleteAux]
        rw [if_pos (by simpa using hg)]
      obtain ⟨⟨b3, c3⟩, hrec, heq⟩ := Option.map_eq_some'.mp h2
      simp only [Prod.mk.injEq] at heq
      rw [← heq.2]
      exact List.Sublist.cons₂ n (ih n.marked b3 c3 hrec)
    · have hgf := bool_eq_false _ hg
      have hmf : n.marked = false := by
        rcases Bool.or_eq_false_iff.mp hgf with ⟨h1, _⟩
        exact h1
      have hnlt : ¬n.value < value := by
        rcases Bool.or_eq_false_iff.mp hgf with ⟨_, h2⟩
        simpa using h2
      by_cases heq : n.value = value
      · by_cases hpm : pm = true
        · rw [show deleteAux value pm (n :: rest) = none from by
            simp [deleteAux, hmf, hnlt, heq, hpm]] at h
          exact absurd h (by simp)
        · have h2 : some ((true : Bool), rest) = some (b, c2) := by
            rw [← h]
            simp [deleteAux, hmf, hnlt, heq, bool_eq_false _ hpm]
          simp only [Option.some.injEq, Prod.mk.injEq] at h2
          rw [← h2.2]
          exact List.sublist_cons_self n rest
      · have h2 : some ((false : Bool), n :: rest) = some (b, c2) := by
          rw [← h]
          simp [deleteAux, hmf, hnlt, heq]
        simp only [Option.some.injEq, Prod.mk.injEq] at h2
        rw [← h2.2]

theorem Insert_chain_mem (l : ConcurrentIntList) (w : Int) (m : intNode)
    (hm : m ∈ (l.Insert w).2.chain) : m ∈ l.chain ∨ m = newIntNode w := by
  cases hI : insertAux w l.root.marked l.chain with
  | none =>
    left
    simpa [ConcurrentIntList.Insert, hI] using hm
  | some r =>
    obtain ⟨b, c⟩ := r
    simp only [ConcurrentIntList.Insert, hI] at hm
    exact insertAux_mem w l.chain l.root.marked b c hI m hm

theorem Delete_chain_sublist (l : ConcurrentIntList) (w : Int) :
    (l.Delete w).2.chain.Sublist l.chain := by
  cases hD : deleteAux w l.root.marked l.chain with
  | none =>
    simp only [ConcurrentIntList.Delete, hD]
    exact List.Sublist.refl l.chain
  | some r =>
    obtain ⟨b, c⟩ := r
    simp only [ConcurrentIntList.Delete, hD]
    exact deleteAux_sublist w l.chain l.root.marked b c hD

theorem run_vals_from_inserts :
    ∀ (ops : List Op) (l : ConcurrentIntList) (x : Int),
      x ∈ vals (ops.foldl applyOp l).chain → x ∈ vals l.chain ∨ Op.insert x ∈ ops := by
  intro ops
  induction ops with
  | nil => intro l x h; left; exact h
  | cons o rest ih =>
    intro l x h
    rcases ih (applyOp l o) x h with h2 | h2
    · cases o with
      | insert w =>
        rw [mem_vals] at h2
        obtain ⟨m, hm, hv⟩ := h2
        rcases Insert_chain_mem l w m hm with h3 | h3
        · left; rw [mem_vals]; exact ⟨m, h3, hv⟩
        · right
          have hx : x = w := by rw [← hv, h3]; rfl
          rw [hx]
          exact List.mem_cons_self _ _
      | delete w =>
        rw [mem_vals] at h2
        obtain ⟨m, hm, hv⟩ := h2
        left
        rw [mem_vals]
        exact ⟨m, (Delete_chain_sublist l w).subset hm, hv⟩
    · right; exact List.mem_cons_of_mem _ h2

theorem containsAux_find (value : Int) :
    ∀ c : List intNode,
      containsAux value c =
        ((c.find? fun n => !n.marked && decide (value ≤ n.value)).elim false
          fun n => n.value == value) := by
  intro c
  induction c with
  | nil => rfl
  | cons n rest ih =>
    by_cases hm : n.marked = true
    · rw [show containsAux value (n :: rest) = containsAux value rest from by
        simp [containsAux, hm]]
      rw [List.find?_cons_of_neg _ (by simp [hm])]
      exact ih
    · have hmf : n.marked = false := bool_eq_false _ hm
      by_cases hlt : n.value < value
      · rw [show containsAux value (n :: rest) = containsAux value rest from by
          simp [containsAux, hmf, hlt]]
        rw [List.find?_cons_of_neg _ (by simp [hmf, not_le.mpr hlt])]
        exact ih
      · rw [show containsAux value (n :: rest) = (n.value == value) from by
          simp [containsAux, hmf, hlt]]
        rw [List.find?_cons_of_pos _ (by simp [hmf, not_lt.mp hlt])]
        rfl

/-! ## Claims -/

/-- C1, counterexample to the claim as stated.  With the call sequence
`Insert(5); Insert(5); Delete(5)` the value 5 has a net-positive
(inserted minus deleted) *call* count of `2 - 1 = 1`, yet the quiescent
`Range` traversal is empty: the second `Insert(5)` is a duplicate and returns
`false` without adding a node, so call counts (as opposed to successful-call
counts) do not determine membership. -/
theorem c1_net_call_count_cex :
    0 < callNet [Op.insert 5, Op.insert 5, Op.delete 5] 5 ∧
    (run [Op.insert 5, Op.insert 5, Op.delete 5]).rangeValues = [] ∧
    5 ∉ (run [Op.insert 5, Op.insert 5, Op.delete 5]).rangeValues := by
  refine ⟨by decide, by decide, by decide⟩

/-- C1 (amended): after any finite sequence of completed `Insert`/`Delete`
calls with no operation in flight, the `Range` traversal yields a strictly
ascending sequence of values, and that sequence contains exactly the values
with a net-positive *successful* (true-returning) inserted-minus-deleted call
count; in particular inserting 5, 1, 3 in that order yields `[1, 3, 5]`. -/
theorem c1_range_sorted_net_success (ops : List Op) (v : Int) :
    List.Pairwise (fun a b : Int => a < b) (run ops).rangeValues ∧
    (0 < (runNet ops v).2 ↔ v ∈ (run ops).rangeValues) ∧
    (run [Op.insert 5, Op.insert 1, Op.insert 3]).rangeValues = [1, 3, 5] := by
  refine ⟨?_, ?_, by decide⟩
  · obtain ⟨hroot, hu, hs, hsize⟩ := seqInv_run ops
    rw [rangeValues_eq_vals]
    exact List.Pairwise.map intNode.value (fun a b h => h) hs
  · rw [runNet_eq]
    have hcm := contains_iff_mem (run ops) v (seqInv_run ops)
    constructor
    · intro h
      by_cases hc : (run ops).Contains v = true
      · exact hcm.mp hc
      · rw [if_neg hc] at h
        exact absurd h (lt_irrefl 0)
    · intro h
      rw [if_pos (hcm.mpr h)]
      exact zero_lt_one

/-- C2: `Insert(v)` returns `true` exactly when `v` is not already present; a
duplicate `Insert` returns `false` (in the source, before any lock is taken:
the duplicate check at line 85 precedes the `pre.mutex.Lock()` at line 89)
and leaves the whole state unchanged; a serial `Insert(v); Insert(v)` on a
state without `v` returns `true` then `false`, and `Contains(v)` is `true`
after the first call and still `true` after the second. -/
theorem c2_duplicate_insert (l : ConcurrentIntList) (v : Int) (h : SeqInv l) :
    (l.Insert v).1 = !(l.Contains v) ∧
    (l.Contains v = true → l.Insert v = (false, l)) ∧
    (l.Contains v = false →
      (l.Insert v).1 = true ∧
      ((l.Insert v).2.Insert v).1 = false ∧
      ((l.Insert v).2.Insert v).2 = (l.Insert v).2 ∧
      (l.Insert v).2.Contains v = true ∧
      ((l.Insert v).2.Insert v).2.Contains v = true) := by
  have hdup : ∀ m : ConcurrentIntList, SeqInv m → m.Contains v = true →
      m.Insert v = (false, m) := by
    intro m hm hc
    obtain ⟨hroot, hu, hs, hsize⟩ := hm
    rw [Contains_eq m v hu] at hc
    rw [Insert_eq m v hroot hu, insChain_eq_self v m.chain hc,
      insRes_eq_not_delRes, hc]
    rfl
  refine ⟨insert_true_iff l v h, hdup l h, ?_⟩
  intro hc
  have hb : (l.Insert v).1 = true := by rw [insert_true_iff l v h, hc]; rfl
  have h1 : SeqInv (l.Insert v).2 := seqInv_insert l v h
  have hc1 : (l.Insert v).2.Contains v = true :=
    (contains_after_insert l v v h).mpr (Or.inl rfl)
  have hdup2 := hdup (l.Insert v).2 h1 hc1
  refine ⟨hb, ?_, ?_, hc1, ?_⟩
  · rw [hdup2]
  · rw [hdup2]
  · rw [hdup2]
    exact hc1

/-- C2 witness: the theorem applied to the fresh list and the value 7. -/
theorem c2_witness :
    (NewConcurrentIntList.Insert 7).1 = !(NewConcurrentIntList.Contains 7) ∧
    ((NewConcurrentIntList.Insert 7).1 = true ∧
      ((NewConcurrentIntList.Insert 7).2.Insert 7).1 = false ∧
      ((NewConcurrentIntList.Insert 7).2.Insert 7).2 = (NewConcurrentIntList.Insert 7).2 ∧
      (NewConcurrentIntList.Insert 7).2.Contains 7 = true ∧
      ((NewConcurrentIntList.Insert 7).2.Insert 7).2.Contains 7 = true) := by
  have h := c2_duplicate_insert NewConcurrentIntList 7 seqInv_new
  exact ⟨h.1, h.2.2 (by decide)⟩

/-- C3: `Delete(v)` on a state without `v` returns `false` and leaves the
whole structure (chain and size counter) unchanged; `Delete(v)` on a state
with `v` returns `true`, and `Contains(v)` afterwards returns `false`. -/
theorem c3_delete_absent_present (l : ConcurrentIntList) (v : Int) (h : SeqInv l) :
    (l.Contains v = false → l.Delete v = (false, l)) ∧
    (l.Contains v = true →
      (l.Delete v).1 = true ∧ (l.Delete v).2.Contains v = false) := by
  constructor
  · intro hc
    obtain ⟨hroot, hu, hs, hsize⟩ := h
    rw [Contains_eq l v hu] at hc
    rw [Delete_eq l v hroot hu, delChain_eq_self v l.chain hc, hc]
    rfl
  · intro hc
    refine ⟨by rw [delete_true_iff l v h, hc], ?_⟩
    cases hcb : (l.Delete v).2.Contains v with
    | false => rfl
    | true => exact (((contains_after_delete l v v h).mp hcb).1 rfl).elim

/-- C3 witness: delete an absent value (2) and a present value (1) on the
one-element list built by `Insert(1)`. -/
theorem c3_witness :
    (run [Op.insert 1]).Delete 2 = (false, run [Op.insert 1]) ∧
    ((run [Op.insert 1]).Delete 1).1 = true ∧
    ((run [Op.insert 1]).Delete 1).2.Contains 1 = false := by
  refine ⟨(c3_delete_absent_present (run [Op.insert 1]) 2 (seqInv_run _)).1 (by decide),
    (c3_delete_absent_present (run [Op.insert 1]) 1 (seqInv_run _)).2 (by decide)⟩

/-- C4: on every state (not only reachable ones — marked nodes may be
physically linked), `Contains(v)` equals the test on the *first* chain node
that is unmarked with value ≥ v (`find?` of the complement of the loop
guard): it returns `true` iff that node exists and stores exactly `v`.
Consequently `Contains` never answers `true` on account of a marked node:
whenever it returns `true`, some physically linked node is unmarked and
stores `v`. -/
theorem c4_contains_skips_marked (l : ConcurrentIntList) (v : Int) :
    l.Contains v =
      ((l.chain.find? fun n => !n.marked && decide (v ≤ n.value)).elim false
        fun n => n.value == v) ∧
    (l.Contains v = true → ∃ n ∈ l.chain, n.marked = false ∧ n.value = v) := by
  refine ⟨containsAux_find v l.chain, ?_⟩
  intro h
  rw [ConcurrentIntList.Contains, containsAux_find v l.chain] at h
  cases hf : l.chain.find? fun n => !n.marked && decide (v ≤ n.value) with
  | none => rw [hf] at h; simp at h
  | some n =>
    rw [hf] at h
    have hmem := List.mem_of_find?_eq_some hf
    have hpred := List.find?_some hf
    have hmf : n.marked = false := by
      cases hmb : n.marked
      · rfl
      · rw [hmb] at hpred
        simp at hpred
    refine ⟨n, hmem, hmf, ?_⟩
    simpa using h

/-- C4 witness: on a chain holding a marked 3 and an unmarked 5,
`Contains 5` is `true` and the theorem yields the unmarked witness node. -/
theorem c4_witness :
    ∃ n ∈ (⟨newIntNode (-1), [⟨3, true⟩, ⟨5, false⟩], 1⟩ : ConcurrentIntList).chain,
      n.marked = false ∧ n.value = 5 :=
  (c4_contains_skips_marked ⟨newIntNode (-1), [⟨3, true⟩, ⟨5, false⟩], 1⟩ 5).2 (by decide)

/-- C5: in every quiescent sequential state `Len()` equals the exact number
of live (physically linked, non-deleted) values, and on arbitrary states the
counter moves exactly with the boolean results: `+1` on an `Insert` that
returns `true`, `-1` on a `Delete` that returns `true`, `0` otherwise. -/
theorem c5_len_counter (ops : List Op) (l : ConcurrentIntList) (v : Int) :
    (run ops).Len = (((run ops).chain.filter fun n => !n.marked).length : Int) ∧
    (l.Insert v).2.Len = l.Len + (if (l.Insert v).1 then 1 else 0) ∧
    (l.Delete v).2.Len = l.Len - (if (l.Delete v).1 then 1 else 0) := by
  refine ⟨?_, ?_, ?_⟩
  · obtain ⟨hroot, hu, hs, hsize⟩ := seqInv_run ops
    have hf : (run ops).chain.filter (fun n => !n.marked) = (run ops).chain :=
      List.filter_eq_self.mpr fun n hn => by rw [hu n hn]; rfl
    show (run ops).size = _
    rw [hf]
    exact hsize
  · cases hI : insertAux v l.root.marked l.chain with
    | none => simp [ConcurrentIntList.Insert, hI, ConcurrentIntList.Len]
    | some r =>
      obtain ⟨b, c⟩ := r
      cases b <;> simp [ConcurrentIntList.Insert, hI, ConcurrentIntList.Len]
  · cases hD : deleteAux v l.root.marked l.chain with
    | none => simp [ConcurrentIntList.Delete, hD, ConcurrentIntList.Len]
    | some r =>
      obtain ⟨b, c⟩ := r
      cases b <;> simp [ConcurrentIntList.Delete, hD, ConcurrentIntList.Len]

/-- C6, counterexample to the claim as stated: `NewConcurrentIntList` stores
`-1` (not the minimum representable value) in the sentinel, and `Insert(-5)`
on the fresh list succeeds, so the sentinel's stored value is *not* strictly
smaller than every insertable element. -/
theorem c6_sentinel_cex :
    (NewConcurrentIntList.Insert (-5)).1 = true ∧
    ¬(NewConcurrentIntList.root.value < -5) := by
  refine ⟨by decide, by decide⟩

/-- C6 (amended): the sentinel's stored value is `-1`, which is strictly
smaller than every successfully inserted value `v` with `-1 < v`; for values
`≤ -1` the inequality fails, but no traversal ever compares against the
sentinel's value, so all operations remain correct (see C7). -/
theorem c6_sentinel_below (l : ConcurrentIntList) (v : Int) (h : SeqInv l)
    (hv : -1 < v) (_hins : (l.Insert v).1 = true) : l.root.value < v := by
  have h0 : l.root.value = -1 := by rw [h.1]; rfl
  rw [h0]
  exact hv

/-- C6 witness: inserting 3 into the fresh list. -/
theorem c6_witness : NewConcurrentIntList.root.value < 3 :=
  c6_sentinel_below NewConcurrentIntList 3 seqInv_new (by decide) (by decide)

/-- C7: every operation starts at the sentinel's successor and never reads
the sentinel's value, so values `≤ -1` work: for any `v ≤ -1`, `Insert(v)` on
the empty list returns `true`, `Contains(v)` then returns `true`, the full
`Range` output is `[v]`; and a `Range` traversal only ever yields values that
were arguments of some `Insert` call — never the sentinel's value `-1`
unless `-1` itself was inserted. -/
theorem c7_below_sentinel_values :
    (∀ v : Int, v ≤ -1 →
      (NewConcurrentIntList.Insert v).1 = true ∧
      (NewConcurrentIntList.Insert v).2.Contains v = true ∧
      (NewConcurrentIntList.Insert v).2.rangeValues = [v]) ∧
    (∀ (ops : List Op) (x : Int), x ∈ (run ops).rangeValues → Op.insert x ∈ ops) := by
  constructor
  · intro v _
    have hu : allUnmarked NewConcurrentIntList.chain := by
      intro n hn
      exact absurd hn (List.not_mem_nil n)
    rw [Insert_eq NewConcurrentIntList v rfl hu]
    refine ⟨rfl, ?_, ?_⟩
    · show containsAux v (insChain v []) = true
      simp [insChain, containsAux, newIntNode, lt_irrefl]
    · show rangeVisit (fun _ => true) (insChain v []) = [v]
      simp [insChain, rangeVisit, newIntNode]
  · intro ops x hx
    rw [rangeValues_eq_vals] at hx
    rcases run_vals_from_inserts ops NewConcurrentIntList x hx with h2 | h2
    · exact absurd h2 (by simp [NewConcurrentIntList, vals])
    · exact h2

/-- C7 witness: insert the value -5 (below the sentinel value -1) into a
fresh list, and the traced origin of the value 3 in `run [Insert(3)]`. -/
theorem c7_witness :
    ((NewConcurrentIntList.Insert (-5)).1 = true ∧
      (NewConcurrentIntList.Insert (-5)).2.Contains (-5) = true ∧
      (NewConcurrentIntList.Insert (-5)).2.rangeValues = [-5]) ∧
    Op.insert 3 ∈ [Op.insert 3] :=
  ⟨c7_below_sentinel_values.1 (-5) (by decide),
    c7_below_sentinel_values.2 [Op.insert 3] 3 (by decide)⟩

/-- C8: all operations in the model are total Lean functions, and in every
sequentially reachable state the single `Insert`/`Delete` attempt commits
(`isSome`): the commit-time validation never fails, so the `goto start`
retry (the `none` branch, totalized as a no-op in the wrappers) is never
taken and the operations terminate without error on every integer input. -/
theorem c8_operations_total (l : ConcurrentIntList) (v : Int) (h : SeqInv l) :
    (insertAux v l.root.marked l.chain).isSome = true ∧
    (deleteAux v l.root.marked l.chain).isSome = true := by
  obtain ⟨hroot, hu, _, _⟩ := h
  have hm : l.root.marked = false := by rw [hroot]; rfl
  rw [hm, insertAux_eq_spec v l.chain hu, deleteAux_eq_spec v l.chain hu]
  exact ⟨rfl, rfl⟩

/-- C8 witness: both attempts commit on the fresh list with value 0. -/
theorem c8_witness :
    (insertAux 0 NewConcurrentIntList.root.marked NewConcurrentIntList.chain).isSome = true ∧
    (deleteAux 0 NewConcurrentIntList.root.marked NewConcurrentIntList.chain).isSome = true :=
  c8_operations_total NewConcurrentIntList 0 seqInv_new

/-- C9: deletion marks before it unlinks, and marks are never reset.
(a) every node in the chain after an `Insert` is either an untouched node of
the old chain or the freshly allocated node; (b) fresh nodes start with
`deleted = false`; (c) `Delete` only removes nodes, never rewriting a
surviving node's flag; (d) when `Delete(v)` succeeds it finds an unmarked
linked node holding `v`, the intermediate state written by `current.mark()`
(`markCommit`) holds that node with its flag set *while still physically
linked*, and only the subsequent `pre.updateNext(current.next())`
(`unlinkCommit`) detaches it — so a node's flag goes `false → true` at most
once and no operation ever writes `false`. -/
theorem c9_mark_then_unlink :
    (∀ (l : ConcurrentIntList) (w : Int) (m : intNode),
      m ∈ (l.Insert w).2.chain → m ∈ l.chain ∨ m = newIntNode w) ∧
    (∀ w : Int, (newIntNode w).marked = false) ∧
    (∀ (l : ConcurrentIntList) (w : Int) (m : intNode),
      m ∈ (l.Delete w).2.chain → m ∈ l.chain) ∧
    (∀ (l : ConcurrentIntList) (v : Int), SeqInv l → (l.Delete v).1 = true →
      ∃ front n back,
        l.chain = front ++ n :: back ∧ n.marked = false ∧ n.value = v ∧
        (⟨n.value, true⟩ : intNode) ∈ markCommit front n back ∧
        (l.Delete v).2.chain = unlinkCommit front back) := by
  refine ⟨?_, fun w => rfl, ?_, ?_⟩
  · intro l w m hm
    exact Insert_chain_mem l w m hm
  · intro l w m hm
    exact (Delete_chain_sublist l w).subset hm
  · intro l v hInv hDel
    obtain ⟨hroot, hu, hs, hsize⟩ := hInv
    have hres : delRes v l.chain = true := by
      rw [Delete_eq l v hroot hu] at hDel
      exact hDel
    obtain ⟨front, n, back, hc, hv, hd⟩ := delChain_decomp v l.chain hres
    refine ⟨front, n, back, hc, ?_, hv, ?_, ?_⟩
    · refine hu n ?_
      rw [hc]
      exact List.mem_append_right front (List.mem_cons_self n back)
    · exact List.mem_append_right front (List.mem_cons_self _ back)
    · rw [Delete_eq l v hroot hu]
      show delChain v l.chain = unlinkCommit front back
      rw [hd]
      rfl

/-- C9 witness: deleting 1 from the list built by `Insert(1)`. -/
theorem c9_witness :
    ∃ front n back,
      (run [Op.insert 1]).chain = front ++ n :: back ∧ n.marked = false ∧ n.value = 1 ∧
      (⟨n.value, true⟩ : intNode) ∈ markCommit front n back ∧
      ((run [Op.insert 1]).Delete 1).2.chain = unlinkCommit front back :=
  c9_mark_then_unlink.2.2.2 (run [Op.insert 1]) 1 (seqInv_run _) (by decide)

example : (run [Op.insert 5, Op.insert 1, Op.insert 3]).rangeValues = [1, 3, 5] := by decide
example : (run [Op.insert 5, Op.insert 1, Op.insert 3]).Len = 3 := by decide
example : (run [Op.insert 5, Op.insert 5, Op.delete 5]).rangeValues = [] := by decide
example : callNet [Op.insert 5, Op.insert 5, Op.delete 5] 5 = 1 := by decide
example : (NewConcurrentIntList.Insert (-5)).1 = true := by decide
example : ((NewConcurrentIntList.Insert (-5)).2.Contains (-5)) = true := by decide
example : (runNet [Op.insert 5, Op.insert 5, Op.delete 5] 5).2 = 0 := by decide
example : SeqInv (run [Op.insert 5, Op.insert 1, Op.insert 3]) := by decide
